import Mathlib

/-!
Verification of the narigama-utils clipboard transformation CLI
(src/main.rs) against its natural-language specification.

Rust strings are modelled as `List Char` (Rust `char` and Lean `Char` are
both Unicode scalar values); Rust byte values are modelled as `Nat` with
explicit bounds.  Functions that can panic in the source (`unwrap`,
`expect`) are modelled as `Option`-returning functions where `none` is the
panic.  Randomness and the clock are modelled by passing the sampled
values explicitly.
-/

set_option autoImplicit false
set_option maxRecDepth 10000
set_option maxHeartbeats 1000000

/-! ### Whitespace, trimming and splitting (str::trim, str::split) -/

/-- Models Rust `char::is_whitespace`: the Unicode `White_Space` property
(25 code points). -/
def isRustWhitespace (c : Char) : Bool :=
  [0x09, 0x0A, 0x0B, 0x0C, 0x0D, 0x20, 0x85, 0xA0, 0x1680,
   0x2000, 0x2001, 0x2002, 0x2003, 0x2004, 0x2005, 0x2006, 0x2007,
   0x2008, 0x2009, 0x200A, 0x2028, 0x2029, 0x202F, 0x205F, 0x3000].contains c.toNat

/-- Models Rust `str::trim_start`. -/
def trimStart (s : List Char) : List Char := s.dropWhile isRustWhitespace

/-- Models Rust `str::trim_end`. -/
def trimEnd (s : List Char) : List Char := (s.reverse.dropWhile isRustWhitespace).reverse

/-- Models Rust `str::trim` (trim Unicode whitespace from both ends). -/
def trim (s : List Char) : List Char := trimEnd (trimStart s)

/-- Models Rust `str::split(sep)` for a single-character pattern: yields the
chunks between occurrences of `sep`; the empty string yields one empty
chunk, and adjacent separators yield empty chunks. -/
def splitOnChar (sep : Char) : List Char → List (List Char)
  | [] => [[]]
  | c :: rest =>
    if c = sep then [] :: splitOnChar sep rest
    else
      match splitOnChar sep rest with
      | [] => [[c]]
      | h :: tl => (c :: h) :: tl

/-- Models `Vec::<String>::join(sep)` for a single-character separator. -/
def joinSep (sep : Char) : List (List Char) → List Char
  | [] => []
  | [t] => t
  | t :: t' :: ts => t ++ sep :: joinSep sep (t' :: ts)

/-! ### The binary codec (binary_decode / binary_encode, main.rs:80-94) -/

/-- A base-2 digit character. -/
def isBinDigit (c : Char) : Bool := c = '0' || c = '1'

/-- Numeric value of a (base-2) digit string, most significant digit
first; non-digit characters contribute 0 (callers check digits first). -/
def binVal (l : List Char) : Nat :=
  l.foldl (fun acc c => acc * 2 + (if c = '1' then 1 else 0)) 0

/-- Models Rust `u8::from_str_radix(tok, 2)`: an optional leading `+` sign
followed by a nonempty run of base-2 digits; errors (here `none`) on an
empty digit run, a non-digit character, or a value that overflows `u8`
(the step-by-step checked arithmetic of the Rust implementation succeeds
exactly when the final value is at most 255). -/
def fromStrRadix2 (tok : List Char) : Option Nat :=
  match tok with
  | [] => none
  | c :: rest =>
    let digs := if c = '+' then rest else c :: rest
    if digs.isEmpty then none
    else if digs.all isBinDigit && decide (binVal digs ≤ 255) then some (binVal digs)
    else none

/-- The per-token loop of `binary_decode`: each token is parsed with
`u8::from_str_radix(_, 2)` and `unwrap`ped (a failure panics, modelled as
`none`), and the byte is cast to a `char` (`as char`, i.e. the code point
equal to the byte value). -/
def decodeTokens : List (List Char) → Option (List Char)
  | [] => some []
  | t :: ts =>
    match fromStrRadix2 t, decodeTokens ts with
    | some b, some rest => some (Char.ofNat b :: rest)
    | _, _ => none

/-- Models `binary_decode` (main.rs:80-86): trim the input, split on single
spaces, parse every chunk as a base-2 byte and collect the corresponding
characters; `none` models the `unwrap` panic on a bad chunk. -/
def binary_decode (input : List Char) : Option (List Char) :=
  decodeTokens (splitOnChar ' ' (trim input))

/-- UTF-8 encoding of one Unicode scalar value, as Rust `str::bytes`
produces it. -/
def utf8Char (c : Char) : List Nat :=
  let n := c.toNat
  if n < 0x80 then [n]
  else if n < 0x800 then [0xC0 + n / 0x40, 0x80 + n % 0x40]
  else if n < 0x10000 then
    [0xE0 + n / 0x1000, 0x80 + (n / 0x40) % 0x40, 0x80 + n % 0x40]
  else
    [0xF0 + n / 0x40000, 0x80 + (n / 0x1000) % 0x40, 0x80 + (n / 0x40) % 0x40,
     0x80 + n % 0x40]

/-- Models Rust `str::bytes`: the UTF-8 bytes of the string. -/
def utf8Bytes (s : List Char) : List Nat := s.flatMap utf8Char

/-- Binary digit characters of `n`, most significant first (fuel-based so
the kernel can evaluate it); models Rust `format!("{:b}", n)`. -/
def binDigitsGo : Nat → Nat → List Char → List Char
  | 0, _, acc => acc
  | fuel + 1, n, acc =>
    if n = 0 then acc
    else binDigitsGo fuel (n / 2) ((if n % 2 = 1 then '1' else '0') :: acc)

/-- Models Rust `format!("{:b}", n)`. -/
def toBinaryString (n : Nat) : List Char :=
  if n = 0 then ['0'] else binDigitsGo n n []

/-- Models Rust `format!("{:0>8}", s)`: left-pad with `'0'` to width 8. -/
def pad8 (s : List Char) : List Char := List.replicate (8 - s.length) '0' ++ s

/-- The 8-digit zero-padded binary rendering of one byte. -/
def byteToken (b : Nat) : List Char := pad8 (toBinaryString b)

/-- Models `binary_encode` (main.rs:88-94): render each UTF-8 byte of the
input as an 8-digit zero-padded base-2 string and join with single
spaces. -/
def binary_encode (input : List Char) : List Char :=
  joinSep ' ' ((utf8Bytes input).map byteToken)

/-- The spec's description of a decodable token, amended with the leading
`+` sign that `u8::from_str_radix` accepts: an optional `+` followed by a
nonempty run of `0`/`1` digits whose value fits in a byte. -/
def isValidOctetToken (tok : List Char) : Bool :=
  match tok with
  | [] => false
  | c :: rest =>
    let digs := if c = '+' then rest else c :: rest
    !digs.isEmpty && digs.all isBinDigit && decide (binVal digs ≤ 255)

/-! ### The URL rewriter (reddit_top, main.rs:112-138)

The `url` crate is an external collaborator; its behaviour, as exercised by
`reddit_top`, is embedded below for absolute special-scheme URLs of the
form `scheme "://" host [path] ["?" query]` without userinfo, port,
fragment or characters needing percent-encoding (all URLs the claims
mention are of this form). -/

/-- The structured view `reddit_top` manipulates: scheme, host, serialized
path (starting with `/`) and raw query string. -/
structure RUrl where
  scheme : List Char
  host : List Char
  path : List Char
  query : Option (List Char)
deriving DecidableEq

/-- Models `url::Url::parse` on the subset described above: splits the
scheme at `"://"`, the host at the first `/` or `?`, the path at the first
`?`; a URL with no path gets the root path `/` (special schemes always
carry a non-empty path).  `none` models a parse error. -/
def parseUrl (input : List Char) : Option RUrl :=
  let scheme := input.takeWhile (fun c => c != ':')
  match input.dropWhile (fun c => c != ':') with
  | ':' :: '/' :: '/' :: rest =>
    if scheme.isEmpty then none
    else
      let host := rest.takeWhile (fun c => c != '/' && c != '?')
      if host.isEmpty then none
      else
        match rest.dropWhile (fun c => c != '/' && c != '?') with
        | [] => some ⟨scheme, host, ['/'], none⟩
        | '?' :: q => some ⟨scheme, host, ['/'], some q⟩
        | pathAndQuery =>
          let path := pathAndQuery.takeWhile (fun c => c != '?')
          match pathAndQuery.dropWhile (fun c => c != '?') with
          | '?' :: q => some ⟨scheme, host, path, some q⟩
          | _ => some ⟨scheme, host, path, none⟩
  | _ => none

/-- Models Rust `str::trim_end_matches("/")`: remove every trailing
slash. -/
def trimEndMatchesSlash (p : List Char) : List Char :=
  (p.reverse.dropWhile (fun c => c == '/')).reverse

/-- Models `Url::set_path` for the paths arising here (already `/`-rooted
or empty): the empty path re-serializes to `/` for special schemes. -/
def setPath (u : RUrl) (p : List Char) : RUrl :=
  { u with path := if p.isEmpty then ['/'] else p }

/-- Models `Url::path_segments_mut().extend([seg])` for a segment without
characters needing escaping: a `/` is inserted first unless the
serialized path is just `/` (which already ends in a slash). -/
def extendSegment (u : RUrl) (seg : List Char) : RUrl :=
  { u with path := if u.path = ['/'] then u.path ++ seg else u.path ++ '/' :: seg }

/-- Models `Url::query_pairs_mut().append_pair(k, v)` for `k`, `v` without
characters needing form-urlencoding: the pair is APPENDED to whatever
query string is already present (`&`-separated when the existing query is
non-empty); nothing is replaced. -/
def appendPair (q : Option (List Char)) (k v : List Char) : Option (List Char) :=
  match q with
  | none => some (k ++ '=' :: v)
  | some [] => some (k ++ '=' :: v)
  | some s => some (s ++ '&' :: (k ++ '=' :: v))

/-- Serialization of the modelled URL, as `Url::to_string` emits it. -/
def RUrl.toString (u : RUrl) : List Char :=
  u.scheme ++ ':' :: '/' :: '/' :: (u.host ++ u.path ++
    (match u.query with
     | none => []
     | some q => '?' :: q))

/-- Models Rust `str::contains(pat)` on the modelled path: does `pat`
occur as a contiguous subsequence? -/
def containsSeq (pat : List Char) : List Char → Bool
  | [] => pat.isEmpty
  | c :: rest => pat.isPrefixOf (c :: rest) || containsSeq pat rest

/-- The mutation part of `reddit_top` (main.rs:113-137), after parsing:
trim trailing slashes from the path; on `/u/` or `/user/` paths append the
`submitted` segment and append `sort=top`; otherwise append a `top`
segment unless the path contains `/comments/`, and append `sort=top` and
`t=all`. -/
def redditTopUrl (url0 : RUrl) : RUrl :=
  let url := setPath url0 (trimEndMatchesSlash url0.path)
  if ("/u/".toList.isPrefixOf url.path || "/user/".toList.isPrefixOf url.path) then
    let url := extendSegment url ("submitted".toList)
    { url with query := appendPair url.query ("sort".toList) ("top".toList) }
  else
    let url := if containsSeq ("/comments/".toList) url.path then url
               else extendSegment url ("top".toList)
    { url with
      query := appendPair (appendPair url.query ("sort".toList) ("top".toList))
                 ("t".toList) ("all".toList) }

/-- Models `reddit_top` (main.rs:112-138): parse the input URL (the
`unwrap` panic on a malformed URL is `none`), rewrite it, and serialize
the result. -/
def reddit_top (input : List Char) : Option (List Char) :=
  (parseUrl input).map (fun u => (redditTopUrl u).toString)

/-- Name part of one raw `name=value` chunk of a query string. -/
def paramName (p : List Char) : List Char := p.takeWhile (fun c => c != '=')

/-- How many `&`-separated pairs of the query carry the given name. -/
def countParam (q : Option (List Char)) (name : List Char) : Nat :=
  match q with
  | none => 0
  | some s => ((splitOnChar '&' s).filter (fun p => paramName p == name)).length

/-- The query-string part of a serialized URL (everything after the first
`?`). -/
def queryOfString (url : List Char) : List Char :=
  match url.dropWhile (fun c => c != '?') with
  | '?' :: q => q
  | _ => []

example : reddit_top ("https://reddit.com/r/rust/".toList)
    = some ("https://reddit.com/r/rust/top?sort=top&t=all".toList) := by decide
example : reddit_top ("https://reddit.com/r/rust?sort=new".toList)
    = some ("https://reddit.com/r/rust/top?sort=new&sort=top&t=all".toList) := by decide
example : countParam (some (queryOfString
    ("https://reddit.com/r/rust/top?sort=new&sort=top&t=all".toList))) ("sort".toList) = 2 := by
  decide
example : reddit_top ("https://reddit.com/u/someone/".toList)
    = some ("https://reddit.com/u/someone/submitted?sort=top".toList) := by decide
example : reddit_top ("https://reddit.com/r/rust/comments/abc123/title/".toList)
    = some ("https://reddit.com/r/rust/comments/abc123/title?sort=top&t=all".toList) := by decide

/-! ### The timestamp command (now / get_iso_timestamp, main.rs:74-78,160-162)

`now()` reads the clock; the instant is passed explicitly here as Unix
epoch seconds plus sub-second nanoseconds.  `get_iso_timestamp` calls
`.to_string()` on a `jiff::Timestamp`, whose `Display` implementation is
the RFC 3339 / ISO 8601 rendering (`YYYY-MM-DDTHH:MM:SSZ`, with the
sub-second fraction appended when non-zero), embedded below. -/

/-- Decimal digit characters of `n`, most significant first (fuel-based so
the kernel can evaluate it). -/
def decDigitsGo : Nat → Nat → List Char → List Char
  | 0, _, acc => acc
  | fuel + 1, n, acc =>
    if n = 0 then acc
    else decDigitsGo fuel (n / 10) (Char.ofNat (48 + n % 10) :: acc)

/-- Decimal rendering of a natural number. -/
def decDigits (n : Nat) : List Char :=
  if n = 0 then ['0'] else decDigitsGo n n []

/-- Left-pad with `'0'` to the given width. -/
def padZeros (w : Nat) (s : List Char) : List Char :=
  List.replicate (w - s.length) '0' ++ s

/-- Drop trailing `'0'` characters (used for the sub-second fraction). -/
def trimZeroTail (l : List Char) : List Char :=
  (l.reverse.dropWhile (fun c => c == '0')).reverse

/-- Gregorian civil date (year, month, day) of a day count relative to
1970-01-01, by the standard era-based conversion (as jiff performs it);
`Int` division truncates toward zero, matching the reference
algorithm. -/
def civilFromDays (z0 : Int) : Int × Nat × Nat :=
  let z := z0 + 719468
  let era : Int := (if 0 ≤ z then z else z - 146096) / 146097
  let doe : Nat := (z - era * 146097).toNat
  let yoe : Nat := (doe - doe / 1460 + doe / 36524 - doe / 146096) / 365
  let doy : Nat := doe - (365 * yoe + yoe / 4 - yoe / 100)
  let mp : Nat := (5 * doy + 2) / 153
  let d : Nat := doy - (153 * mp + 2) / 5 + 1
  let m : Nat := if mp < 10 then mp + 3 else mp - 9
  ((yoe : Int) + era * 400 + (if mp < 10 then 0 else 1), m, d)

/-- Models the `Display` of `jiff::Timestamp` (RFC 3339, UTC designator
`Z`) at the instant `secs` seconds plus `nanos` nanoseconds after the
Unix epoch. -/
def renderTimestamp (secs : Int) (nanos : Nat) : List Char :=
  let days : Int := secs.fdiv 86400
  let sod : Nat := (secs - days * 86400).toNat
  let c := civilFromDays days
  let yearChars :=
    if c.1 < 0 then '-' :: padZeros 4 (decDigits (-c.1).toNat)
    else padZeros 4 (decDigits c.1.toNat)
  let frac := if nanos = 0 then [] else '.' :: trimZeroTail (padZeros 9 (decDigits nanos))
  yearChars ++ '-' :: padZeros 2 (decDigits c.2.1) ++ '-' :: padZeros 2 (decDigits c.2.2)
    ++ 'T' :: padZeros 2 (decDigits (sod / 3600)) ++ ':' :: padZeros 2 (decDigits (sod % 3600 / 60))
    ++ ':' :: padZeros 2 (decDigits (sod % 60)) ++ frac ++ ['Z']

/-- Models `get_iso_timestamp` (main.rs:160-162): the RFC 3339 rendering
of the current instant (`now().timestamp().to_string()`), with the clock
reading passed explicitly. -/
def get_iso_timestamp (secs : Int) (nanos : Nat) : List Char :=
  renderTimestamp secs nanos

example : get_iso_timestamp 0 0 = "1970-01-01T00:00:00Z".toList := by decide
example : get_iso_timestamp 1760227200 0 = "2025-10-12T00:00:00Z".toList := by decide
example : get_iso_timestamp 1760283722 500000000 = "2025-10-12T15:42:02.5Z".toList := by decide

/-! ### The command registry (Command, main.rs:13-46) -/

/-- The closed command set, constructors in declaration order (the order
`strum::EnumIter` iterates). -/
inductive Command where
  | ConfigEspanso
  | BinaryDecode
  | BinaryEncode
  | FormatJson
  | Ip
  | Password
  | RedditTop
  | Spongebob
  | Timestamp
  | Uuid4
  | Uuid7
deriving DecidableEq

/-- Models `Command::iter()` from `strum::EnumIter`: every variant in
declaration order. -/
def Command.iter : List Command :=
  [.ConfigEspanso, .BinaryDecode, .BinaryEncode, .FormatJson, .Ip, .Password,
   .RedditTop, .Spongebob, .Timestamp, .Uuid4, .Uuid7]

/-- Models the `strum::Display` serialization: the `#[strum(serialize)]`
override for each variant, and the bare variant name for
`ConfigEspanso`, which has none. -/
def Command.serialize : Command → List Char
  | .ConfigEspanso => "ConfigEspanso".toList
  | .BinaryDecode => "binary-decode".toList
  | .BinaryEncode => "binary-encode".toList
  | .FormatJson => "format-json".toList
  | .Ip => "ip".toList
  | .Password => "password".toList
  | .RedditTop => "reddit-top".toList
  | .Spongebob => "spongebob".toList
  | .Timestamp => "timestamp".toList
  | .Uuid4 => "uuid4".toList
  | .Uuid7 => "uuid7".toList

/-! ### The snippet emitter (config_espanso, main.rs:48-72) -/

/-- One rendered espanso block, exactly as the `format!` template in
`config_espanso` produces it for executable path `p` and serialized
command name `name` (the template's `{{{{output}}}}` renders as the two
literal braces around `output`). -/
def espansoBlock (p name : List Char) : List Char :=
  "\n  - trigger: \";".toList ++ name
    ++ "\"\n    replace: \"\x7b\x7boutput\x7d\x7d\"\n    vars:\n      - name: output\n        type: script\n        params:\n          args:\n            - ".toList
    ++ p
    ++ "\n            - ".toList ++ name ++ "\n".toList

/-- Models `config_espanso` (main.rs:48-72): for every command except
`ConfigEspanso` itself (in iteration order) render one block, and join
the blocks with newlines.  The resolved executable path is passed
explicitly. -/
def config_espanso (exec_path : List Char) : List Char :=
  joinSep '\n' (Command.iter.filterMap (fun item =>
    match item with
    | Command.ConfigEspanso => none
    | item => some (espansoBlock exec_path (Command.serialize item))))

/-! ### The dispatcher (main, main.rs:180-208) -/

/-- The observable boundary effects `main` performs, in order. -/
inductive Effect where
  | clipboardRead
  | clipboardWrite
  | stdoutWrite
  | networkGet
  | clockRead
  | rngSample
  | exePathRead
deriving DecidableEq

/-- Which `match` arms of `main` (main.rs:190-202) pass the clipboard
string `input` to their transformation. -/
def requiresInput : Command → Bool
  | .BinaryDecode | .BinaryEncode | .FormatJson | .Password | .RedditTop | .Spongebob => true
  | _ => false

/-- Boundary effects of the transformation selected by each `match` arm of
`main`. -/
def transformEffects : Command → List Effect
  | .ConfigEspanso => [.exePathRead]
  | .Ip => [.networkGet]
  | .Timestamp => [.clockRead]
  | .Uuid4 => [.rngSample]
  | .Uuid7 => [.clockRead, .rngSample]
  | .Password => [.rngSample]
  | _ => []

/-- The effect trace of one `main` invocation (main.rs:180-208): the
clipboard is read unconditionally (main.rs:186-188) BEFORE the command is
dispatched, then the selected transformation runs, then the result is
printed and written back to the clipboard. -/
def mainTrace (cmd : Command) : List Effect :=
  Effect.clipboardRead :: (transformEffects cmd ++ [Effect.stdoutWrite, Effect.clipboardWrite])

/-! ### The case alternator (spongebob, main.rs:149-158)

Rust `char::to_uppercase` / `to_lowercase` apply the full Unicode case
mappings of the standard library (possibly several characters); they are
external collaborators, so `spongebob` is parametrized by the two
mappings, and the concrete claims instantiate them on ASCII, where the
Unicode mapping is the single ASCII-cased character. -/

/-- Models `spongebob` (main.rs:149-158): enumerate the input characters,
uppercase at even indices, lowercase at odd indices, and concatenate every
produced character sequence. -/
def spongebob (up low : Char → List Char) (input : List Char) : List Char :=
  (input.enum.map (fun p => if p.1 % 2 = 0 then up p.2 else low p.2)).flatten

/-- Rust `char::to_uppercase` restricted to ASCII characters, where it
yields the single ASCII-uppercased character. -/
def toUppercaseAscii (c : Char) : List Char := [c.toUpper]

/-- Rust `char::to_lowercase` restricted to ASCII characters, where it
yields the single ASCII-lowercased character. -/
def toLowercaseAscii (c : Char) : List Char := [c.toLower]

example : spongebob toUppercaseAscii toLowercaseAscii ("hello".toList) = "HeLlO".toList := by
  decide

/-! ### The password generator (gen_password, main.rs:102-110) -/

/-- Numeric value of a decimal digit string, most significant first. -/
def decVal (l : List Char) : Nat :=
  l.foldl (fun acc c => acc * 10 + (c.toNat - 48)) 0

/-- Models Rust `str::parse::<usize>()`: an optional leading `+` sign
followed by a nonempty run of decimal digits whose value fits in 64 bits
(the checked arithmetic of the Rust parser succeeds exactly when the
final value is below `2^64`). -/
def parseUsize (s : List Char) : Option Nat :=
  let digs :=
    match s with
    | c :: rest => if c = '+' then rest else c :: rest
    | [] => []
  if digs.isEmpty then none
  else if digs.all (fun c => c.isDigit) && decide (decVal digs < 18446744073709551616) then
    some (decVal digs)
  else none

/-- The 62-symbol alphabet of `rand::distr::Alphanumeric`, in the order
the distribution's sampler indexes it. -/
def alphanumericChars : List Char :=
  "ABCDEFGHIJKLMNOPQRSTUVWXYZabcdefghijklmnopqrstuvwxyz0123456789".toList

/-- Models `gen_password` (main.rs:102-110): parse the input as the
requested length, defaulting to 32 on any parse failure, then take that
many uniform samples from the alphanumeric alphabet.  The random sampler
is modelled as an explicit stream of indices into the 62-symbol
alphabet. -/
def gen_password (input : List Char) (rng : Nat → Fin 62) : List Char :=
  (List.range ((parseUsize input).getD 32)).map
    (fun i => alphanumericChars.get (Fin.cast (by decide) (rng i)))

example : gen_password ("5".toList) (fun _ => 0) = ['A', 'A', 'A', 'A', 'A'] := by decide
example : (gen_password ("not-a-number".toList) (fun _ => 27)).length = 32 := by decide
example : (gen_password [] (fun _ => 61)).length = 32 := by decide

example : binary_encode ['A', 'B'] = "01000001 01000010".toList := by decide
example : binary_decode ("01000001 01000010".toList) = some ['A', 'B'] := by decide
example : binary_decode ("+1000001".toList) = some ['A'] := by decide
example : binary_decode ("100000000".toList) = none := by decide
example : binary_decode [] = none := by decide
example : binary_decode (binary_encode ['é']) = some ['Ã', '©'] := by decide

/-! ## Helper lemmas -/

lemma dropWhile_append_of_all {p : Char → Bool} :
    ∀ (l1 l2 : List Char), (∀ c ∈ l1, p c = true) →
      List.dropWhile p (l1 ++ l2) = List.dropWhile p l2 := by
  intro l1 l2 h
  induction l1 with
  | nil => rfl
  | cons c t ih =>
    rw [List.cons_append, List.dropWhile_cons, if_pos (h c (List.mem_cons_self c t))]
    exact ih (fun x hx => h x (List.mem_cons_of_mem c hx))

lemma dropWhile_eq_nil_of_all {p : Char → Bool} :
    ∀ (l : List Char), (∀ c ∈ l, p c = true) → List.dropWhile p l = [] := by
  intro l h
  induction l with
  | nil => rfl
  | cons c t ih =>
    rw [List.dropWhile_cons, if_pos (h c (List.mem_cons_self c t))]
    exact ih (fun x hx => h x (List.mem_cons_of_mem c hx))

lemma mem_of_mem_dropWhile {p : Char → Bool} :
    ∀ (l : List Char) (c : Char), c ∈ List.dropWhile p l → c ∈ l := by
  intro l c h
  induction l with
  | nil => exact absurd h (by simp)
  | cons a t ih =>
    rw [List.dropWhile_cons] at h
    by_cases hp : p a = true
    · rw [if_pos hp] at h
      exact List.mem_cons_of_mem a (ih h)
    · rw [if_neg hp] at h
      exact h

lemma dropWhile_append_cases {p : Char → Bool} :
    ∀ (l1 l2 : List Char), List.dropWhile p (l1 ++ l2)
      = if List.dropWhile p l1 = [] then List.dropWhile p l2
        else List.dropWhile p l1 ++ l2 := by
  intro l1 l2
  induction l1 with
  | nil => simp
  | cons c t ih =>
    by_cases hp : p c = true
    · rw [List.cons_append, List.dropWhile_cons, if_pos hp, ih, List.dropWhile_cons, if_pos hp]
    · rw [List.cons_append, List.dropWhile_cons, if_neg hp, List.dropWhile_cons, if_neg hp]
      simp

lemma getLast?_append_right :
    ∀ (l1 l2 : List Char), l2 ≠ [] → (l1 ++ l2).getLast? = l2.getLast? := by
  intro l1 l2 h
  cases hr : l2.reverse with
  | nil => exact absurd (List.reverse_eq_nil_iff.mp hr) h
  | cons c rest =>
    rw [← List.head?_reverse, ← List.head?_reverse l2, List.reverse_append, hr]
    rfl

lemma getLast?_concat_char :
    ∀ (l : List Char) (a : Char), (l ++ [a]).getLast? = some a := by
  intro l a
  rw [getLast?_append_right l [a] (by simp)]
  rfl

lemma getLast?_append_some {l2 : List Char} {a : Char} (l1 : List Char)
    (h : l2.getLast? = some a) : (l1 ++ l2).getLast? = some a := by
  have hne : l2 ≠ [] := by
    intro he
    rw [he] at h
    exact absurd h (by simp)
  rw [getLast?_append_right l1 l2 hne, h]

lemma splitOnChar_ne_nil (sep : Char) : ∀ l : List Char, splitOnChar sep l ≠ [] := by
  intro l
  cases l with
  | nil => simp [splitOnChar]
  | cons c rest =>
    rw [splitOnChar]
    by_cases hc : c = sep
    · simp [hc]
    · rw [if_neg hc]
      cases splitOnChar sep rest <;> simp

lemma splitOnChar_cons_eq (sep : Char) (s : List Char) :
    ∃ h0 tl, splitOnChar sep s = h0 :: tl := by
  cases hs : splitOnChar sep s with
  | nil => exact absurd hs (splitOnChar_ne_nil sep s)
  | cons a b => exact ⟨a, b, rfl⟩

lemma splitOnChar_append (sep : Char) :
    ∀ s t : List Char, splitOnChar sep (s ++ sep :: t)
      = splitOnChar sep s ++ splitOnChar sep t := by
  intro s t
  induction s with
  | nil => simp [splitOnChar]
  | cons c s ih =>
    by_cases hc : c = sep
    · subst hc
      rw [List.cons_append, splitOnChar, if_pos rfl, ih, splitOnChar, if_pos rfl,
        List.cons_append]
    · obtain ⟨h0, tl, hs⟩ := splitOnChar_cons_eq sep s
      rw [List.cons_append, splitOnChar, if_neg hc, ih, hs, List.cons_append,
        splitOnChar, if_neg hc, hs]
      rfl

lemma splitOnChar_no_sep (sep : Char) :
    ∀ t : List Char, sep ∉ t → splitOnChar sep t = [t] := by
  intro t h
  induction t with
  | nil => rfl
  | cons c t ih =>
    have hc : ¬ c = sep := fun he => h (he ▸ List.mem_cons_self c t)
    rw [splitOnChar, if_neg hc, ih (fun hm => h (List.mem_cons_of_mem c hm))]

lemma joinSep_ne_nil {sep : Char} :
    ∀ (t : List Char) (ts : List (List Char)), t ≠ [] → joinSep sep (t :: ts) ≠ [] := by
  intro t ts h
  cases ts with
  | nil => exact h
  | cons t' ts => rw [joinSep]; simp

lemma head?_joinSep {sep : Char} :
    ∀ (t : List Char) (ts : List (List Char)), t ≠ [] →
      (joinSep sep (t :: ts)).head? = t.head? := by
  intro t ts h
  cases ts with
  | nil => rfl
  | cons t' ts =>
    rw [joinSep]
    cases t with
    | nil => exact absurd rfl h
    | cons c t => rfl

lemma getLast?_joinSep {sep : Char} :
    ∀ (ts : List (List Char)) (t : List Char), (∀ x ∈ t :: ts, x ≠ []) →
      ∃ x ∈ t :: ts, (joinSep sep (t :: ts)).getLast? = x.getLast? := by
  intro ts
  induction ts with
  | nil => exact fun t _ => ⟨t, List.mem_cons_self t [], rfl⟩
  | cons t' ts ih =>
    intro t h
    obtain ⟨x, hx, hlast⟩ := ih t' (fun x hx => h x (List.mem_cons_of_mem t hx))
    refine ⟨x, List.mem_cons_of_mem t hx, ?_⟩
    rw [joinSep, getLast?_append_right t _ (by simp)]
    have hJ : joinSep sep (t' :: ts) ≠ [] :=
      joinSep_ne_nil t' ts (h t' (List.mem_cons_of_mem t (List.mem_cons_self t' ts)))
    cases hj : joinSep sep (t' :: ts) with
    | nil => exact absurd hj hJ
    | cons j J =>
      rw [List.getLast?_cons_cons, ← hj, hlast]

lemma trimStart_eq_self {l : List Char}
    (h : ∀ c, l.head? = some c → isRustWhitespace c = false) : trimStart l = l := by
  cases l with
  | nil => rfl
  | cons c rest =>
    rw [trimStart, List.dropWhile_cons, if_neg]
    rw [h c rfl]
    simp

lemma trimEnd_eq_self {l : List Char}
    (h : ∀ c, l.getLast? = some c → isRustWhitespace c = false) : trimEnd l = l := by
  rw [trimEnd]
  cases hr : l.reverse with
  | nil =>
    rw [List.reverse_eq_nil_iff.mp hr]
    rfl
  | cons c rest =>
    have hc : l.getLast? = some c := by rw [← List.head?_reverse, hr]; rfl
    rw [List.dropWhile_cons, if_neg (by rw [h c hc]; simp), ← hr, List.reverse_reverse]

lemma trimEnd_eq_nil_of_all {l : List Char}
    (h : ∀ c ∈ l, isRustWhitespace c = true) : trimEnd l = [] := by
  rw [trimEnd, dropWhile_eq_nil_of_all l.reverse (fun c hc => h c (List.mem_reverse.mp hc))]
  rfl

lemma trimEnd_append_ws {ws : List Char} (x : List Char)
    (h : ∀ c ∈ ws, isRustWhitespace c = true) : trimEnd (x ++ ws) = trimEnd x := by
  rw [trimEnd, trimEnd, List.reverse_append,
    dropWhile_append_of_all ws.reverse x.reverse (fun c hc => h c (List.mem_reverse.mp hc))]

lemma trim_extend (ws1 ws2 s : List Char)
    (h1 : ∀ c ∈ ws1, isRustWhitespace c = true)
    (h2 : ∀ c ∈ ws2, isRustWhitespace c = true) :
    trim (ws1 ++ s ++ ws2) = trim s := by
  rw [trim, trim, List.append_assoc, trimStart,
    dropWhile_append_of_all ws1 (s ++ ws2) h1]
  rw [trimStart]
  rw [dropWhile_append_cases s ws2]
  by_cases hnil : List.dropWhile isRustWhitespace s = []
  · rw [if_pos hnil, hnil]
    rw [trimEnd_eq_nil_of_all
      (fun c hc => h2 c (mem_of_mem_dropWhile ws2 c hc))]
    rfl
  · rw [if_neg hnil]
    exact trimEnd_append_ws _ h2

lemma fromStrRadix2_eq_none_iff (t : List Char) :
    fromStrRadix2 t = none ↔ isValidOctetToken t = false := by
  cases t with
  | nil => simp [fromStrRadix2, isValidOctetToken]
  | cons c rest =>
    by_cases hc : c = '+' <;>
      cases h1 : (if c = '+' then rest else c :: rest).isEmpty <;>
      cases h2 : (if c = '+' then rest else c :: rest).all isBinDigit <;>
      cases h3 : decide (binVal (if c = '+' then rest else c :: rest) ≤ 255) <;>
      simp [fromStrRadix2, isValidOctetToken, hc] at h1 h2 h3 ⊢

lemma decodeTokens_eq_none_iff :
    ∀ ts : List (List Char),
      (decodeTokens ts = none ↔ ∃ t ∈ ts, fromStrRadix2 t = none) := by
  intro ts
  induction ts with
  | nil => simp [decodeTokens]
  | cons t ts ih =>
    constructor
    · intro h
      cases hf : fromStrRadix2 t with
      | none => exact ⟨t, List.mem_cons_self t ts, hf⟩
      | some b =>
        cases hd : decodeTokens ts with
        | none =>
          obtain ⟨x, hx, hn⟩ := ih.mp hd
          exact ⟨x, List.mem_cons_of_mem t hx, hn⟩
        | some rest =>
          rw [decodeTokens, hf, hd] at h
          exact absurd h (by simp)
    · rintro ⟨x, hx, hn⟩
      rw [List.mem_cons] at hx
      rcases hx with rfl | hx
      · rw [decodeTokens, hn]
      · rw [decodeTokens, ih.mpr ⟨x, hx, hn⟩]
        cases fromStrRadix2 t <;> rfl

lemma paramName_pair (k v : List Char) (hk : ('=' : Char) ∉ k) :
    paramName (k ++ '=' :: v) = k := by
  rw [paramName]
  induction k with
  | nil => simp
  | cons c t ih =>
    have hc : (c != '=') = true := by
      simp only [bne_iff_ne, ne_eq]
      exact fun he => hk (he ▸ List.mem_cons_self c t)
    rw [List.cons_append, List.takeWhile_cons, hc]
    simp only [ite_true]
    rw [ih (fun hm => hk (List.mem_cons_of_mem c hm))]

lemma countParam_appendPair (q : Option (List Char)) (k v name : List Char)
    (hkamp : ('&' : Char) ∉ k) (hvamp : ('&' : Char) ∉ v) (hkeq : ('=' : Char) ∉ k)
    (hname : name ≠ []) :
    countParam (appendPair q k v) name
      = countParam q name + (if k = name then 1 else 0) := by
  have hpair : ('&' : Char) ∉ (k ++ '=' :: v) := by
    intro hm
    rcases List.mem_append.mp hm with h | h
    · exact hkamp h
    · rcases List.mem_cons.mp h with h | h
      · exact absurd h.symm (by decide)
      · exact hvamp h
  have hsplit : splitOnChar '&' (k ++ '=' :: v) = [k ++ '=' :: v] :=
    splitOnChar_no_sep '&' _ hpair
  have hpn : paramName (k ++ '=' :: v) = k := paramName_pair k v hkeq
  have hfilter :
      ((splitOnChar '&' (k ++ '=' :: v)).filter (fun p => paramName p == name)).length
        = if k = name then 1 else 0 := by
    rw [hsplit, List.filter_cons]
    by_cases hk : k = name
    · rw [if_pos (by rw [hpn, hk]; simp), if_pos hk]
      rfl
    · rw [if_neg (by rw [hpn]; simp [hk]), if_neg hk]
      rfl
  cases q with
  | none =>
    rw [appendPair, countParam, countParam, hfilter]
    simp
  | some s =>
    cases s with
    | nil =>
      rw [appendPair, countParam, countParam, hfilter]
      have hne : ((paramName ([] : List Char) == name)) = false :=
        beq_eq_false_iff_ne.mpr (fun h => hname h.symm)
      have : ((splitOnChar '&' ([] : List Char)).filter
          (fun p => paramName p == name)).length = 0 := by
        rw [splitOnChar, List.filter_cons, if_neg (by simp [hne])]
        rfl
      rw [this]
      simp
    | cons c s0 =>
      rw [appendPair, countParam, countParam, splitOnChar_append, List.filter_append,
        List.length_append, hfilter]
      exact fun h => List.noConfusion h

lemma byteToken_facts :
    ∀ b < 256, (byteToken b).length = 8 ∧ (byteToken b).all isBinDigit = true
      ∧ fromStrRadix2 (byteToken b) = some b := by decide

lemma binDigit_not_ws {c : Char} (h : isBinDigit c = true) :
    isRustWhitespace c = false := by
  have : c = '0' ∨ c = '1' := by
    rw [isBinDigit] at h
    simpa using h
  rcases this with rfl | rfl <;> decide

lemma binDigit_ne_space {c : Char} (h : isBinDigit c = true) : c ≠ ' ' := by
  have : c = '0' ∨ c = '1' := by
    rw [isBinDigit] at h
    simpa using h
  rcases this with rfl | rfl <;> decide

lemma mem_of_head?_eq {l : List Char} {c : Char} (h : l.head? = some c) : c ∈ l := by
  cases l with
  | nil => exact absurd h (by simp)
  | cons a r =>
    have ha : a = c := by simpa using h
    rw [← ha]
    exact List.mem_cons_self a r

lemma mem_of_getLast?_eq {l : List Char} {c : Char} (h : l.getLast? = some c) : c ∈ l := by
  have h2 : l.reverse.head? = some c := by rw [List.head?_reverse]; exact h
  exact List.mem_reverse.mp (mem_of_head?_eq h2)

lemma trim_joinSep_tokens (toks : List (List Char)) (hne : toks ≠ [])
    (hall : ∀ t ∈ toks, t ≠ [] ∧ t.all isBinDigit = true) :
    trim (joinSep ' ' toks) = joinSep ' ' toks := by
  cases toks with
  | nil => exact absurd rfl hne
  | cons t ts =>
    have ht := hall t (List.mem_cons_self t ts)
    have hstart : trimStart (joinSep ' ' (t :: ts)) = joinSep ' ' (t :: ts) := by
      apply trimStart_eq_self
      intro c hc
      rw [head?_joinSep t ts ht.1] at hc
      exact binDigit_not_ws (List.all_eq_true.mp ht.2 c (mem_of_head?_eq hc))
    rw [trim, hstart]
    apply trimEnd_eq_self
    intro c hc
    obtain ⟨x, hx, hlast⟩ := getLast?_joinSep ts t (fun x hx => (hall x hx).1)
    rw [hlast] at hc
    exact binDigit_not_ws (List.all_eq_true.mp (hall x hx).2 c (mem_of_getLast?_eq hc))

lemma splitOnChar_joinSep (sep : Char) :
    ∀ toks : List (List Char), toks ≠ [] → (∀ t ∈ toks, sep ∉ t) →
      splitOnChar sep (joinSep sep toks) = toks := by
  intro toks
  induction toks with
  | nil => exact fun h _ => absurd rfl h
  | cons t ts ih =>
    intro _ hsep
    cases ts with
    | nil => exact splitOnChar_no_sep sep t (hsep t (List.mem_cons_self t []))
    | cons t' ts' =>
      rw [joinSep, splitOnChar_append,
        splitOnChar_no_sep sep t (hsep t (List.mem_cons_self t _)),
        ih (by simp) (fun x hx => hsep x (List.mem_cons_of_mem t hx))]
      rfl

lemma decodeTokens_map_byteToken :
    ∀ bytes : List Nat, (∀ b ∈ bytes, b < 256) →
      decodeTokens (bytes.map byteToken) = some (bytes.map Char.ofNat) := by
  intro bytes h
  induction bytes with
  | nil => rfl
  | cons b bs ih =>
    rw [List.map_cons, List.map_cons, decodeTokens,
      (byteToken_facts b (h b (List.mem_cons_self b bs))).2.2,
      ih (fun x hx => h x (List.mem_cons_of_mem b hx))]

lemma utf8Char_ascii {c : Char} (h : c.toNat < 128) : utf8Char c = [c.toNat] := by
  rw [utf8Char]
  simp only [if_pos h]

lemma utf8Bytes_ascii :
    ∀ s : List Char, (∀ c ∈ s, c.toNat < 128) → utf8Bytes s = s.map Char.toNat := by
  intro s h
  induction s with
  | nil => rfl
  | cons c t ih =>
    rw [utf8Bytes, List.flatMap_cons, utf8Char_ascii (h c (List.mem_cons_self c t)),
      List.map_cons, ← utf8Bytes, ih (fun x hx => h x (List.mem_cons_of_mem c hx))]
    rfl

lemma ofNat_toNat_char (c : Char) : Char.ofNat c.toNat = c := by
  exact Char.ofNat_toNat c

/-! ## Claims -/

/-- Claim C1, counterexample: at the instant 1760227200 s after the epoch
the timestamp command outputs the RFC 3339 string `2025-10-12T00:00:00Z`,
which is not a string of decimal digits, refuting "the output is the
current UTC time rendered as a decimal Unix epoch-seconds integer string
(a string of decimal digits, no date separators)". -/
theorem c1_counterexample :
    get_iso_timestamp 1760227200 0 = "2025-10-12T00:00:00Z".toList
    ∧ (get_iso_timestamp 1760227200 0).all (fun c => c.isDigit) = false := by
  decide

/-- Claim C1, amended: for every invocation (every clock reading), the
timestamp command outputs the current UTC time rendered as an RFC 3339 /
ISO 8601 timestamp string — it always contains the `T` date-time
separator, always ends with the `Z` UTC designator, and is never a bare
string of decimal digits. -/
theorem c1_timestamp_format :
    ∀ (secs : Int) (nanos : Nat),
      'T' ∈ get_iso_timestamp secs nanos
      ∧ (get_iso_timestamp secs nanos).getLast? = some 'Z'
      ∧ (get_iso_timestamp secs nanos).all (fun c => c.isDigit) = false := by
  intro secs nanos
  have hT : 'T' ∈ get_iso_timestamp secs nanos := by
    rw [get_iso_timestamp, renderTimestamp]
    simp only [List.mem_append, List.mem_cons]
    tauto
  refine ⟨hT, ?_, ?_⟩
  · show (renderTimestamp secs nanos).getLast? = some 'Z'
    rw [renderTimestamp]
    repeat
      first
      | rfl
      | apply getLast?_append_some
  · refine Bool.eq_false_iff.mpr (fun hall => ?_)
    have := List.all_eq_true.mp hall 'T' hT
    exact absurd this (by decide)

/-- Claim C3: `reddit_top` on the literal input
`https://reddit.com/r/rust/` returns exactly
`https://reddit.com/r/rust/top?sort=top&t=all`. -/
theorem c3_reddit_top_literal :
    reddit_top ("https://reddit.com/r/rust/".toList)
      = some ("https://reddit.com/r/rust/top?sort=top&t=all".toList) := by
  decide

/-- Claim C5, counterexample: the token `+1000001` contains the character
`+` (neither `0` nor `1`), so the claim says `binary_decode` must fail on
it, yet the code succeeds and returns `A` (`u8::from_str_radix` accepts an
optional leading `+` sign). -/
theorem c5_counterexample :
    binary_decode ("+1000001".toList) = some ['A']
    ∧ ('+' ∈ "+1000001".toList) ∧ isBinDigit '+' = false := by
  decide

/-- Claim C5, amended: `binary_decode` fails exactly when some
space-separated token of the trimmed input is not of the form: an optional
leading `+` sign followed by a nonempty run of `0`/`1` digits whose value
is at most 255; on any input whose every token has that form it
succeeds. -/
theorem c5_binary_decode_errors :
    ∀ input : List Char,
      (binary_decode input = none
        ↔ ∃ t ∈ splitOnChar ' ' (trim input), isValidOctetToken t = false) := by
  intro input
  rw [binary_decode, decodeTokens_eq_none_iff]
  exact exists_congr fun t =>
    and_congr_right fun _ => fromStrRadix2_eq_none_iff t

/-- Claim C7, counterexample: `main` reads the clipboard before
dispatching, so for each of the five commands whose transformation takes
no input (`ip`, `timestamp`, `uuid4`, `uuid7`, `config-espanso`) the
invocation trace nonetheless contains the clipboard read, refuting "the
engine does not invoke the clipboard read capability during that
invocation". -/
theorem c7_counterexample :
    (requiresInput Command.Ip = false ∧ Effect.clipboardRead ∈ mainTrace Command.Ip)
    ∧ (requiresInput Command.Timestamp = false
        ∧ Effect.clipboardRead ∈ mainTrace Command.Timestamp)
    ∧ (requiresInput Command.Uuid4 = false
        ∧ Effect.clipboardRead ∈ mainTrace Command.Uuid4)
    ∧ (requiresInput Command.Uuid7 = false
        ∧ Effect.clipboardRead ∈ mainTrace Command.Uuid7)
    ∧ (requiresInput Command.ConfigEspanso = false
        ∧ Effect.clipboardRead ∈ mainTrace Command.ConfigEspanso) := by
  decide

/-- Claim C7, amended: the engine invokes the clipboard read capability as
the first boundary effect of EVERY invocation, whether or not the selected
transformation requires input (main.rs:186-188 runs before the dispatch
on the command). -/
theorem c7_clipboard_always_read :
    ∀ cmd : Command, (mainTrace cmd).head? = some Effect.clipboardRead := by
  intro cmd
  rfl

/-- Claim C10: `binary_decode` trims leading and trailing whitespace before
splitting, so for every input `s` that decodes successfully, surrounding
`s` with any whitespace (for example a trailing clipboard newline) yields
the same result as decoding `s` itself. -/
theorem c10_binary_decode_trim :
    ∀ ws1 ws2 s : List Char,
      (∀ c ∈ ws1, isRustWhitespace c = true) →
      (∀ c ∈ ws2, isRustWhitespace c = true) →
      (binary_decode s).isSome = true →
      binary_decode (ws1 ++ s ++ ws2) = binary_decode s := by
  intro ws1 ws2 s h1 h2 _
  rw [binary_decode, binary_decode, trim_extend ws1 ws2 s h1 h2]

/-- Claim C10, witness: decoding `" 01000001 \n"` (octet surrounded by a
space and a newline) gives the same result as decoding `01000001`. -/
theorem c10_witness :
    binary_decode (" ".toList ++ "01000001".toList ++ "\n".toList)
      = binary_decode ("01000001".toList) :=
  c10_binary_decode_trim (" ".toList) ("\n".toList) ("01000001".toList)
    (by decide) (by decide) (by decide)

/-- Claim C2, counterexample: on an input whose query already contains a
`sort` parameter, `reddit_top` emits BOTH the old and the new pair — the
output query holds two `sort` parameters, refuting "the output URL's
query string never contains a duplicated parameter name ... exactly one
sort parameter" (`query_pairs_mut().append_pair` appends, it does not
replace). -/
theorem c2_counterexample :
    reddit_top ("https://reddit.com/r/rust?sort=new".toList)
      = some ("https://reddit.com/r/rust/top?sort=new&sort=top&t=all".toList)
    ∧ countParam
        (some (queryOfString
          ("https://reddit.com/r/rust/top?sort=new&sort=top&t=all".toList)))
        ("sort".toList) = 2 := by
  decide

/-- Claim C2, amended: setting the query parameters appends rather than
replaces: for every parsed input URL the rewritten URL's query contains
exactly one more `sort` pair than the input's query did — so an input
with no `sort` parameter gets exactly one, and an input that already has
one ends up with a duplicated `sort` name. -/
theorem c2_sort_appended :
    ∀ u : RUrl,
      countParam (redditTopUrl u).query ("sort".toList)
        = countParam u.query ("sort".toList) + 1 := by
  intro u
  simp only [redditTopUrl]
  split
  · show countParam (appendPair u.query ("sort".toList) ("top".toList)) ("sort".toList)
        = countParam u.query ("sort".toList) + 1
    rw [countParam_appendPair u.query _ _ _ (by decide) (by decide) (by decide) (by decide),
      if_pos rfl]
  · split
    · show countParam
          (appendPair (appendPair u.query ("sort".toList) ("top".toList))
            ("t".toList) ("all".toList)) ("sort".toList)
          = countParam u.query ("sort".toList) + 1
      rw [countParam_appendPair _ _ _ _ (by decide) (by decide) (by decide) (by decide),
        countParam_appendPair u.query _ _ _ (by decide) (by decide) (by decide) (by decide),
        if_pos rfl, if_neg (by decide)]
    · show countParam
          (appendPair (appendPair u.query ("sort".toList) ("top".toList))
            ("t".toList) ("all".toList)) ("sort".toList)
          = countParam u.query ("sort".toList) + 1
      rw [countParam_appendPair _ _ _ _ (by decide) (by decide) (by decide) (by decide),
        countParam_appendPair u.query _ _ _ (by decide) (by decide) (by decide) (by decide),
        if_pos rfl, if_neg (by decide)]

/-- Claim C4, counterexample: the round-trip fails outside ASCII and on
the empty input: encoding `é` (UTF-8 bytes 195, 169) and decoding yields
`Ã©` (each byte reinterpreted as its own code point), and decoding the
encoding of the empty string panics (`none`). -/
theorem c4_counterexample :
    binary_decode (binary_encode ['é']) = some ['Ã', '©']
    ∧ (['Ã', '©'] : List Char) ≠ ['é']
    ∧ binary_decode (binary_encode []) = none := by
  decide

/-- Claim C4, amended: for every NONEMPTY input all of whose characters
are ASCII (code point below 128), `binary_decode (binary_encode s)`
recovers `s` exactly; non-ASCII inputs come back as their UTF-8 bytes
reinterpreted as code points, and the empty input fails to decode. -/
theorem c4_binary_roundtrip :
    ∀ s : List Char, s ≠ [] → (∀ c ∈ s, c.toNat < 128) →
      binary_decode (binary_encode s) = some s := by
  intro s hne hascii
  have hbytes : ∀ b ∈ s.map Char.toNat, b < 256 := by
    intro b hb
    obtain ⟨c, hc, rfl⟩ := List.mem_map.mp hb
    exact Nat.lt_trans (hascii c hc) (by decide)
  have henc : binary_encode s = joinSep ' ' ((s.map Char.toNat).map byteToken) := by
    rw [binary_encode, utf8Bytes_ascii s hascii]
  have htoksne : (s.map Char.toNat).map byteToken ≠ [] := by
    simp [hne]
  have hfacts : ∀ t ∈ (s.map Char.toNat).map byteToken,
      t ≠ [] ∧ t.all isBinDigit = true := by
    intro t ht
    obtain ⟨b, hbm, rfl⟩ := List.mem_map.mp ht
    have hb := hbytes b hbm
    refine ⟨?_, (byteToken_facts b hb).2.1⟩
    intro he
    have hlen := (byteToken_facts b hb).1
    rw [he] at hlen
    exact absurd hlen (by decide)
  have hnosp : ∀ t ∈ (s.map Char.toNat).map byteToken, (' ' : Char) ∉ t := by
    intro t ht hsp
    exact absurd (List.all_eq_true.mp (hfacts t ht).2 ' ' hsp) (by decide)
  rw [binary_decode, henc, trim_joinSep_tokens _ htoksne hfacts,
    splitOnChar_joinSep ' ' _ htoksne hnosp,
    decodeTokens_map_byteToken _ hbytes, List.map_map]
  congr 1
  have hid : ∀ c ∈ s, (Char.ofNat ∘ Char.toNat) c = id c := fun c _ => ofNat_toNat_char c
  rw [List.map_congr_left hid, List.map_id]

/-- Claim C4, witness: the round-trip theorem applied to the concrete
ASCII input `Hi`. -/
theorem c4_witness :
    binary_decode (binary_encode ("Hi".toList)) = some ("Hi".toList) :=
  c4_binary_roundtrip ("Hi".toList) (by decide) (by decide)

/-- Claim C6: whatever the random sampler yields, `gen_password` on input
`5` returns exactly 5 characters, on `not-a-number` and on the empty
string exactly 32 (the default length, since neither parses as an
integer), every returned character lies in the 62-symbol alphanumeric
alphabet, and the operation never fails. -/
theorem c6_gen_password :
    ∀ rng : Nat → Fin 62,
      (gen_password ("5".toList) rng).length = 5
      ∧ (gen_password ("not-a-number".toList) rng).length = 32
      ∧ (gen_password [] rng).length = 32
      ∧ ∀ input : List Char, ∀ c ∈ gen_password input rng, c ∈ alphanumericChars := by
  intro rng
  refine ⟨?_, ?_, ?_, ?_⟩
  · rw [gen_password, List.length_map, List.length_range]
    decide
  · rw [gen_password, List.length_map, List.length_range]
    decide
  · rw [gen_password, List.length_map, List.length_range]
    decide
  · intro input c hc
    rw [gen_password] at hc
    obtain ⟨i, _, rfl⟩ := List.mem_map.mp hc
    exact List.get_mem _ _ _

/-- Claim C6, witness: the theorem applied at the constant sampler `0`
(so `gen_password "5"` is `AAAAA`) to exhibit `A` in the alphabet. -/
theorem c6_witness : 'A' ∈ alphanumericChars :=
  (c6_gen_password (fun _ => (0 : Fin 62))).2.2.2 ("5".toList) 'A' (by decide)

/-- Claim C8: `spongebob` uppercases the character at each even 0-based
input index and lowercases the character at each odd input index, for any
case mappings; the index is the character's position in the INPUT (so
appending one more character to the input appends exactly that
character's own conversion, and multi-character case expansions never
shift later indices), and on `hello` with the ASCII case mappings the
output is exactly `HeLlO`. -/
theorem c8_spongebob :
    (∀ (up low : Char → List Char) (s : List Char) (c : Char),
      spongebob up low (s ++ [c])
        = spongebob up low s ++ (if s.length % 2 = 0 then up c else low c))
    ∧ spongebob toUppercaseAscii toLowercaseAscii ("hello".toList) = "HeLlO".toList := by
  constructor
  · intro up low s c
    have he : (s ++ [c]).enum = s.enum ++ [(s.length, c)] := by
      rw [List.enum_append]
      simp [List.enumFrom]
    rw [spongebob, spongebob, he, List.map_append, List.flatten_append]
    simp
  · decide

/-- Claim C9: the rendered espanso configuration is exactly one templated
block per registered command other than `ConfigEspanso` itself — the ten
transformation commands — joined in registry declaration order, and each
block embeds that command's serialized name both as the trigger suffix
(right after `;`) and as the final invocation argument. -/
theorem c9_config_espanso :
    (∀ p : List Char, config_espanso p
        = joinSep '\n' ((Command.iter.filter (fun c => c != Command.ConfigEspanso)).map
            (fun c => espansoBlock p (Command.serialize c))))
    ∧ (Command.iter.filter (fun c => c != Command.ConfigEspanso)).map Command.serialize
        = ["binary-decode".toList, "binary-encode".toList, "format-json".toList,
           "ip".toList, "password".toList, "reddit-top".toList, "spongebob".toList,
           "timestamp".toList, "uuid4".toList, "uuid7".toList]
    ∧ (∀ p name : List Char, espansoBlock p name
        = "\n  - trigger: \";".toList ++ name
          ++ "\"\n    replace: \"\x7b\x7boutput\x7d\x7d\"\n    vars:\n      - name: output\n        type: script\n        params:\n          args:\n            - ".toList
          ++ p ++ "\n            - ".toList ++ name ++ "\n".toList) :=
  ⟨fun _ => rfl, by decide, fun _ _ => rfl⟩
